import Mathlib

/-!
Shallow embedding of `src/extract_rpg_sessions.py`: a QQ chat-log parser that
reconstructs messages from a line-oriented transcript, segments them into
role-play sessions bounded by start/save markers, and renders each session as
a sequence of styled text runs.

Strings are modelled as `List Char`.  Python's `str.strip`, `str.startswith`,
`str.endswith`, `str.replace` and `'\n'.join` are modelled by executable
functions below.  Python's regex `\d` is modelled by `Char.isDigit`.
-/

abbrev Str := List Char

/-- The whitespace characters stripped by Python's `str.strip()`. -/
def pyIsSpace (c : Char) : Bool :=
  c = ' ' || c = '\t' || c = '\n' || c = '\r' || c = '\x0b' || c = '\x0c'

/-- Python `s.strip()`: remove leading and trailing whitespace. -/
def pyStrip (s : Str) : Str :=
  ((s.dropWhile pyIsSpace).reverse.dropWhile pyIsSpace).reverse

/-- Python `s.endswith(':')` (false on the empty string). -/
def endsColon (s : Str) : Bool :=
  s.getLast? == some ':'

/-- Scanner for `pyReplace`: walks the string left to right; a positive
counter skips over the remainder of a matched occurrence of the pattern. -/
def raGo (pat : Str) : Nat → Str → Str
  | _, [] => []
  | k + 1, _ :: cs => raGo pat k cs
  | 0, c :: cs =>
    if pat.isPrefixOf (c :: cs) then raGo pat (pat.length - 1) cs
    else c :: raGo pat 0 cs

/-- Python `s.replace(pat, '')`: delete every occurrence of `pat`, scanning
left to right without rescanning the produced text. -/
def pyReplace (pat s : Str) : Str :=
  if pat.isEmpty then s else raGo pat 0 s

/-- Python `'\n'.join(ls)`. -/
def joinNL : List Str → Str
  | [] => []
  | [x] => x
  | x :: y :: t => x ++ '\n' :: joinNL (y :: t)

/-- The `while content_lines and not content_lines[-1]: content_lines.pop()`
loop: remove trailing empty lines. -/
def dropTrailingBlanks (ls : List Str) : List Str :=
  (ls.reverse.dropWhile List.isEmpty).reverse

/-- Models Python regex `\d`. -/
def isDig (c : Char) : Bool := c.isDigit

/-- Models `\d+` at the head of a string: requires at least one digit, then
consumes the maximal digit run, returning the rest. -/
def digits1 (s : Str) : Option Str :=
  match s with
  | c :: cs => if isDig c then some (cs.dropWhile isDig) else none
  | [] => none

/-- Models the final literal `——` of the start-marker pattern (anything may
follow, as with `re.search`). -/
def expectTwoDash : Str → Bool
  | '—' :: '—' :: _ => true
  | _ => false

/-- Models the optional group `(，[^—]+)?` followed by the closing `——`. -/
def optGroupB (s : Str) : Bool :=
  match s with
  | '，' :: rest =>
    match rest with
    | c :: _ =>
      if c = '—' then false
      else expectTwoDash (rest.dropWhile (fun ch => ch ≠ '—'))
    | [] => false
  | _ => expectTwoDash s

/-- Models the tail of the start-marker pattern after the second `\d+`:
the optional group `(/\d+时?)?`, then `(，[^—]+)?——`. -/
def afterDigits (s : Str) : Bool :=
  match s with
  | '/' :: rest =>
    match digits1 rest with
    | some rest2 =>
      optGroupB (match rest2 with | '时' :: r => r | _ => rest2)
    | none => false
  | _ => optGroupB s

/-- Whether the start-marker regex
`——CST501[67]/\d+/\d+(/\d+时?)?(，[^—]+)?——` matches a prefix of `s`. -/
def matchStartAt : Str → Bool
  | '—' :: '—' :: 'C' :: 'S' :: 'T' :: '5' :: '0' :: '1' :: c :: '/' :: r =>
    (c = '6' || c = '7') &&
      (match digits1 r with
       | some ('/' :: r2) =>
         (match digits1 r2 with
          | some r3 => afterDigits r3
          | none => false)
       | _ => false)
  | _ => false

/-- Truthiness of `start_pattern.search(content)`: the pattern matches at some
position of `s`. -/
def containsStart (s : Str) : Bool :=
  s.tails.any matchStartAt

/-- The end-marker literal `'——save——'`. -/
def saveMarker : Str := "——save——".toList

/-- A reconstructed chat message (`{'username': ..., 'timestamp': ...,
'content': ...}` in the source). -/
structure Message where
  username : Str
  timestamp : Option Str
  content : Str
deriving DecidableEq

/-- The `'时间:'` field label. -/
def timeLabel : Str := "时间:".toList

/-- The `'内容:'` field label. -/
def contentLabel : Str := "内容:".toList

/-- The `'提及:'` field label. -/
def mentionLabel : Str := "提及:".toList

/-- Stop condition of the content-accumulation loop in `parse_chat_log`:
`next_line.startswith('提及:') or (next_line.endswith(':') and i + 2 <
len(lines) and lines[i + 2].strip().startswith('时间:'))`, where `nl` is the
stripped next line and `rest` the lines after it. -/
def stopHere (nl : Str) (rest : List Str) : Bool :=
  mentionLabel.isPrefixOf nl ||
    (endsColon nl &&
      match rest with
      | r2 :: _ => timeLabel.isPrefixOf (pyStrip r2)
      | [] => false)

/-- The content-accumulation loop of `parse_chat_log` (lines 74-95 of the
source): given the `consecutive_empty` counter and the lines from position
`i + 1` on, return the accumulated content lines and the remaining lines. -/
def contentLoop : Nat → List Str → List Str × List Str
  | _, [] => ([], [])
  | consecEmpty, next :: rest =>
    let nl := pyStrip next
    if stopHere nl rest then ([], next :: rest)
    else if nl = [] then
      if consecEmpty + 1 ≥ 2 then ([], next :: rest)
      else
        let p := contentLoop (consecEmpty + 1) rest
        ([] :: p.1, p.2)
    else
      let p := contentLoop 0 rest
      (nl :: p.1, p.2)

/-- The mention-skipping loop of `parse_chat_log` (lines 103-105). -/
def skipMention : List Str → List Str
  | [] => []
  | x :: xs =>
    let sx := pyStrip x
    if !sx.isEmpty && mentionLabel.isPrefixOf sx then skipMention xs
    else x :: xs

/-- The timestamp lookahead of `parse_chat_log` (lines 63-66): if the next
line (stripped) starts with the time label, extract the timestamp and
consume the line. -/
def readTime (rest : List Str) : Option Str × List Str :=
  match rest with
  | t :: r =>
    if timeLabel.isPrefixOf (pyStrip t) then
      (some (pyStrip (pyReplace timeLabel (pyStrip t))), r)
    else (none, t :: r)
  | [] => (none, [])

/-- The content lookahead of `parse_chat_log` (lines 68-101): if the next
line (stripped) starts with the content label, build the first content line
by deleting the label string-wide and stripping, run the accumulation loop,
strip trailing blanks and join with newlines. -/
def readContent (rest1 : List Str) : Option Str × List Str :=
  match rest1 with
  | c :: r =>
    if contentLabel.isPrefixOf (pyStrip c) then
      let first := pyStrip (pyReplace contentLabel (pyStrip c))
      let p := contentLoop 0 r
      (some (joinNL (dropTrailingBlanks (first :: p.1))), p.2)
    else (none, c :: r)
  | [] => (none, [])

/-- Processing of one candidate username line in `parse_chat_log` (lines
58-112): `line` is the stripped candidate line (nonempty, ending in `':'`),
`rest` the lines after it.  Returns the message emitted for this candidate
(if any, guarded by `if content:`) and the lines from which parsing
resumes. -/
def processCandidate (line : Str) (rest : List Str) : Option Message × List Str :=
  let tpair := readTime rest
  let cpair := readContent tpair.2
  let rest3 := skipMention cpair.2
  match cpair.1 with
  | some b => if b = [] then (none, rest3) else (some ⟨line.dropLast, tpair.1, b⟩, rest3)
  | none => (none, rest3)

/-- The body built for a message whose content line is `c` and whose
following lines are `r`: first content line (label deleted, stripped), then
the accumulated lines, trailing blanks removed, joined with newlines. -/
def builtBody (c : Str) (r : List Str) : Str :=
  joinNL (dropTrailingBlanks (pyStrip (pyReplace contentLabel (pyStrip c)) :: (contentLoop 0 r).1))

/-- The outer line loop of `parse_chat_log`, structural over a fuel counter;
each iteration consumes at least one line, so `fuel = lines.length`
suffices (`parseLoopF_adequate`). -/
def parseLoopF : Nat → List Str → List Message
  | 0, _ => []
  | _ + 1, [] => []
  | fuel + 1, l :: rest =>
    let line := pyStrip l
    if !line.isEmpty && endsColon line then
      let pr := processCandidate line rest
      pr.1.toList ++ parseLoopF fuel pr.2
    else
      parseLoopF fuel rest

/-- Models `parse_chat_log`: reconstruct the ordered message sequence from the raw
lines of the input file (line terminators may be present or not: every
access in the source strips the line first). -/
def parse_chat_log (lines : List Str) : List Message :=
  parseLoopF lines.length lines

/-- The segmenter state: `sessions`, `in_session`, `current_session`. -/
structure SegState where
  sessions : List (List Message)
  inSession : Bool
  current : List Message
deriving DecidableEq

/-- Initial segmenter state. -/
def segInit : SegState := ⟨[], false, []⟩

/-- One iteration of the `for msg in messages` loop of
`extract_rpg_sessions`. -/
def segStep (st : SegState) (msg : Message) : SegState :=
  if containsStart msg.content then
    { sessions :=
        if st.inSession && !st.current.isEmpty then st.sessions ++ [st.current]
        else st.sessions
      inSession := true
      current := [msg] }
  else if st.inSession then
    let cur := st.current ++ [msg]
    if msg.content = saveMarker then
      { sessions := st.sessions ++ [cur], inSession := false, current := [] }
    else
      { st with current := cur }
  else st

/-- Models `extract_rpg_sessions`: fold the state machine over the messages, then
emit a final unterminated session if still inside one. -/
def extract_rpg_sessions (messages : List Message) : List (List Message) :=
  let fin := messages.foldl segStep segInit
  if fin.inSession && !fin.current.isEmpty then fin.sessions ++ [fin.current]
  else fin.sessions

/-- The `NAME_MAPPING` table: net names and QQ numbers to character names. -/
def NAME_MAPPING : List (Str × Str) := [
  ("失语".toList, "【神谕圣咏】吾即五声".toList),
  ("heavy🐜".toList, "【调停者】阿德勒".toList),
  ("Ga1axian".toList, "【九号球】玖渚巡".toList),
  ("随波逐流制作委员会".toList, "【黑印】加尔文".toList),
  ("梦之海".toList, "【菟丝子】十七".toList),
  ("无糖常温百事FES".toList, "【时代】艾帕克".toList),
  ("907564155".toList, "【神谕圣咏】吾即五声".toList),
  ("2704587599".toList, "【调停者】阿德勒".toList),
  ("1456846090".toList, "【九号球】玖渚巡".toList),
  ("1695539040".toList, "【黑印】加尔文".toList),
  ("1214581195".toList, "【菟丝子】十七".toList),
  ("651464169".toList, "【时代】艾帕克".toList)]

/-- An RGB color triple (`RGBColor` in the source). -/
structure RGB where
  r : Nat
  g : Nat
  b : Nat
deriving DecidableEq

/-- The `COLOR_MAPPING` table: character names to colors. -/
def COLOR_MAPPING : List (Str × RGB) := [
  ("【神谕圣咏】吾即五声".toList, ⟨255, 0, 0⟩),
  ("【调停者】阿德勒".toList, ⟨128, 0, 128⟩),
  ("【九号球】玖渚巡".toList, ⟨139, 69, 19⟩),
  ("【黑印】加尔文".toList, ⟨0, 0, 0⟩),
  ("【菟丝子】十七".toList, ⟨0, 0, 255⟩),
  ("【时代】艾帕克".toList, ⟨128, 128, 128⟩)]

/-- The per-message body of the loop in `process_rpg_session`: map the
username through `NAME_MAPPING`, and keep the timestamp only on start- or
end-marker messages. -/
def processMsg (msg : Message) : Message :=
  let username :=
    match NAME_MAPPING.lookup msg.username with
    | some mapped => mapped
    | none => msg.username
  let timestamp :=
    if containsStart msg.content = true ∨ msg.content = saveMarker then msg.timestamp
    else none
  ⟨username, timestamp, msg.content⟩

/-- Models `process_rpg_session`. -/
def process_rpg_session (session : List Message) : List Message :=
  session.map processMsg

/-- One styled text run added with `paragraph.add_run`; `color` is set
exactly when the source sets `run.font.color.rgb`. -/
structure Run where
  text : Str
  bold : Bool
  color : Option RGB
deriving DecidableEq

/-- The four runs built for one message in `create_word_document`: username
(bold), optional bracketed timestamp, `': '` separator, content. -/
structure RenderedMessage where
  nameRun : Run
  timestampRun : Option Run
  colonRun : Run
  contentRun : Run
deriving DecidableEq

/-- The per-message paragraph construction of `create_word_document` (lines
198-222): each run is colored iff the (already mapped) username is a key of
`COLOR_MAPPING`; the timestamp run is added iff the timestamp is truthy. -/
def renderMessage (msg : Message) : RenderedMessage :=
  let color := COLOR_MAPPING.lookup msg.username
  { nameRun := ⟨msg.username, true, color⟩
    timestampRun :=
      match msg.timestamp with
      | some ts =>
        if ts = [] then none
        else some ⟨" [".toList ++ ts ++ "]".toList, false, color⟩
      | none => none
    colonRun := ⟨": ".toList, false, color⟩
    contentRun := ⟨msg.content, false, color⟩ }

/-- Rendering of one session: `process_rpg_session` then one paragraph per
message. -/
def renderSession (session : List Message) : List RenderedMessage :=
  (process_rpg_session session).map renderMessage

/-- Models `create_word_document` as the list of rendered sessions in
order (headings and file output are external presentation). -/
def create_word_document (sessions : List (List Message)) : List (List RenderedMessage) :=
  sessions.map renderSession

/-- Invariant of the open accumulated session: nonempty, its head matches
the start pattern, and every later element is neither a start-marker match
nor the save literal. -/
def openInv (cur : List Message) : Prop :=
  ∃ m t, cur = m :: t ∧ containsStart m.content = true ∧
    ∀ x ∈ t, containsStart x.content = false ∧ x.content ≠ saveMarker

/-- Invariant of every emitted session: nonempty, head matches the start
pattern, no later element matches the start pattern, and no element except
possibly the last equals the save literal. -/
def emittedInv (S : List Message) : Prop :=
  ∃ m t, S = m :: t ∧ containsStart m.content = true ∧
    (∀ x ∈ t, containsStart x.content = false) ∧
    (∀ x ∈ (m :: t).dropLast, x.content ≠ saveMarker)

/-- Invariant of the segmenter state. -/
def segInv (st : SegState) : Prop :=
  (∀ S ∈ st.sessions, emittedInv S) ∧ (st.inSession = true → openInv st.current)

/-- Example messages used to instantiate the general theorems. -/
def exMsgStart : Message := ⟨"失语".toList, some "t1".toList, "——CST5016/08/14——".toList⟩

def exMsgStart2 : Message := ⟨"梦之海".toList, some "t2".toList, "——CST5017/01/10——".toList⟩

def exMsgChat : Message := ⟨"x".toList, some "t3".toList, "chatter".toList⟩

def exMsgSave : Message := ⟨"y".toList, some "t4".toList, saveMarker⟩

theorem save_not_start : containsStart saveMarker = false := by decide

theorem openInv_emittedInv {cur : List Message} (h : openInv cur) : emittedInv cur := by
  obtain ⟨m, t, rfl, hm, ht⟩ := h
  refine ⟨m, t, rfl, hm, fun x hx => (ht x hx).1, fun x hx => ?_⟩
  have hx' : x ∈ m :: t := List.dropLast_subset _ hx
  rcases List.mem_cons.mp hx' with rfl | hxt
  · intro hc
    rw [hc, save_not_start] at hm
    exact Bool.false_ne_true hm
  · exact (ht x hxt).2

theorem segStep_inv {st : SegState} (msg : Message) (h : segInv st) :
    segInv (segStep st msg) := by
  obtain ⟨hsess, hopen⟩ := h
  unfold segStep
  by_cases hs : containsStart msg.content = true
  · simp only [hs, if_true]
    constructor
    · intro S hS
      by_cases hg : (st.inSession && !st.current.isEmpty) = true
      · simp only [hg, if_true] at hS
        rcases List.mem_append.mp hS with hS' | hS'
        · exact hsess S hS'
        · have hin : st.inSession = true := ((Bool.and_eq_true _ _).mp hg).1
          have : S = st.current := List.mem_singleton.mp hS'
          subst this
          exact openInv_emittedInv (hopen hin)
      · simp only [hg, if_false] at hS
        exact hsess S hS
    · intro _
      exact ⟨msg, [], rfl, hs, by simp⟩
  · simp only [hs, if_false]
    by_cases hin : st.inSession = true
    · simp only [hin, if_true]
      obtain ⟨m, t, hcur, hm, ht⟩ := hopen hin
      by_cases hsave : msg.content = saveMarker
      · simp only [hsave, if_true]
        constructor
        · intro S hS
          rcases List.mem_append.mp hS with hS' | hS'
          · exact hsess S hS'
          · have : S = st.current ++ [msg] := List.mem_singleton.mp hS'
            subst this
            rw [hcur]
            refine ⟨m, t ++ [msg], rfl, hm, ?_, ?_⟩
            · intro x hx
              rcases List.mem_append.mp hx with hxt | hxm
              · exact (ht x hxt).1
              · have : x = msg := List.mem_singleton.mp hxm
                subst this
                exact Bool.eq_false_iff.mpr hs
            · intro x hx
              rw [show m :: (t ++ [msg]) = (m :: t) ++ [msg] by simp,
                List.dropLast_concat] at hx
              rcases List.mem_cons.mp hx with rfl | hxt
              · intro hc
                rw [hc, save_not_start] at hm
                exact Bool.false_ne_true hm
              · exact (ht x hxt).2
        · intro hfalse
          simp at hfalse
      · simp only [hsave, if_false]
        refine ⟨hsess, fun _ => ?_⟩
        rw [hcur]
        refine ⟨m, t ++ [msg], rfl, hm, fun x hx => ?_⟩
        rcases List.mem_append.mp hx with hxt | hxm
        · exact ht x hxt
        · have : x = msg := List.mem_singleton.mp hxm
          subst this
          exact ⟨Bool.eq_false_iff.mpr hs, hsave⟩
    · simp only [hin, if_false]
      exact ⟨hsess, hopen⟩

theorem segInv_foldl (msgs : List Message) (st : SegState) (h : segInv st) :
    segInv (List.foldl segStep st msgs) := by
  induction msgs generalizing st with
  | nil => exact h
  | cons x xs ih => exact ih (segStep st x) (segStep_inv x h)

theorem segInv_init : segInv segInit := by
  refine ⟨by intro S hS; simp [segInit] at hS, ?_⟩
  intro h
  simp [segInit] at h

theorem extract_emittedInv (msgs : List Message) (S : List Message)
    (hS : S ∈ extract_rpg_sessions msgs) : emittedInv S := by
  have hinv : segInv (List.foldl segStep segInit msgs) :=
    segInv_foldl msgs segInit segInv_init
  unfold extract_rpg_sessions at hS
  by_cases hg : ((List.foldl segStep segInit msgs).inSession &&
      !(List.foldl segStep segInit msgs).current.isEmpty) = true
  · simp only [hg, if_true] at hS
    rcases List.mem_append.mp hS with hS' | hS'
    · exact hinv.1 S hS'
    · have : S = (List.foldl segStep segInit msgs).current := List.mem_singleton.mp hS'
      subst this
      exact openInv_emittedInv (hinv.2 ((Bool.and_eq_true _ _).mp hg).1)
  · simp only [hg, if_false] at hS
    exact hinv.1 S hS

/-- C1: every session emitted by `extract_rpg_sessions` is a nonempty list
whose first message's body matches the start-marker pattern; no zero-message
session is emitted under any closure path. -/
theorem C1_sessions_nonempty_start (msgs : List Message) (S : List Message)
    (hS : S ∈ extract_rpg_sessions msgs) :
    ∃ m t, S = m :: t ∧ containsStart m.content = true := by
  obtain ⟨m, t, rfl, hm, _, _⟩ := extract_emittedInv msgs S hS
  exact ⟨m, t, rfl, hm⟩

theorem C1_witness :
    ∃ m t, ([exMsgStart, exMsgChat, exMsgSave] : List Message) = m :: t ∧
      containsStart m.content = true :=
  C1_sessions_nonempty_start [exMsgStart, exMsgChat, exMsgSave]
    [exMsgStart, exMsgChat, exMsgSave] (by decide)

theorem foldl_plain (t : List Message) (sess : List (List Message))
    (cur : List Message)
    (h : ∀ x ∈ t, containsStart x.content = false ∧ x.content ≠ saveMarker) :
    List.foldl segStep ⟨sess, true, cur⟩ t = ⟨sess, true, cur ++ t⟩ := by
  induction t generalizing cur with
  | nil => simp
  | cons x xs ih =>
    rw [List.foldl_cons]
    have hx := h x (by simp)
    have hstep : segStep ⟨sess, true, cur⟩ x = ⟨sess, true, cur ++ [x]⟩ := by
      unfold segStep
      simp [hx.1, hx.2]
    rw [hstep, ih (cur ++ [x]) (fun y hy => h y (by simp [hy]))]
    simp

theorem reseg (S : List Message) (h : emittedInv S) :
    extract_rpg_sessions S = [S] := by
  obtain ⟨m, t, rfl, hm, hts, hdl⟩ := h
  unfold extract_rpg_sessions
  rw [List.foldl_cons]
  have h1 : segStep segInit m = ⟨[], true, [m]⟩ := by
    unfold segStep segInit
    simp [hm]
  rw [h1]
  rcases List.eq_nil_or_concat t with rfl | ⟨L, z, hconc⟩
  · simp
  · rw [List.concat_eq_append] at hconc
    subst hconc
    have hL : ∀ x ∈ L, containsStart x.content = false ∧ x.content ≠ saveMarker := by
      intro x hx
      refine ⟨hts x (by simp [hx]), ?_⟩
      have hx' : x ∈ (m :: (L ++ [z])).dropLast := by
        rw [show m :: (L ++ [z]) = (m :: L) ++ [z] by simp, List.dropLast_concat]
        simp [hx]
      exact hdl x hx'
    rw [show (L ++ [z] : List Message) = L ++ [z] from rfl, List.foldl_append,
      foldl_plain L [] [m] hL]
    have hz : containsStart z.content = false := hts z (by simp)
    by_cases hzs : z.content = saveMarker
    · have hstep : segStep ⟨[], true, m :: L⟩ z = ⟨[m :: (L ++ [z])], false, []⟩ := by
        unfold segStep
        simp [hz, hzs, save_not_start]
      simp [hstep]
    · have hstep : segStep ⟨[], true, m :: L⟩ z = ⟨[], true, m :: (L ++ [z])⟩ := by
        unfold segStep
        simp [hz, hzs]
      simp [hstep]

/-- C2: running the segmenter on the flat message list of any session it
emitted yields exactly that one session back. -/
theorem C2_resegmentation (msgs : List Message) (S : List Message)
    (hS : S ∈ extract_rpg_sessions msgs) : extract_rpg_sessions S = [S] :=
  reseg S (extract_emittedInv msgs S hS)

theorem C2_witness :
    extract_rpg_sessions [exMsgStart, exMsgChat, exMsgSave] =
      [[exMsgStart, exMsgChat, exMsgSave]] :=
  C2_resegmentation [exMsgChat, exMsgStart, exMsgChat, exMsgSave, exMsgChat]
    [exMsgStart, exMsgChat, exMsgSave] (by decide)

/-- C3: a start-marker message arriving while a nonempty session is open
closes the accumulated session without that message and opens a fresh
session containing exactly that message; the concatenation of emitted
sessions plus the open session keeps every message exactly once, in order. -/
theorem C3_forced_close (st : SegState) (msg : Message)
    (h1 : st.inSession = true) (h2 : st.current ≠ [])
    (h3 : containsStart msg.content = true) :
    segStep st msg = ⟨st.sessions ++ [st.current], true, [msg]⟩ ∧
      (segStep st msg).sessions.flatten ++ (segStep st msg).current =
        st.sessions.flatten ++ st.current ++ [msg] := by
  have hstep : segStep st msg = ⟨st.sessions ++ [st.current], true, [msg]⟩ := by
    unfold segStep
    simp [h3, h1, h2]
  refine ⟨hstep, ?_⟩
  rw [hstep]
  simp

theorem C3_witness :
    segStep ⟨[], true, [exMsgStart]⟩ exMsgStart2 =
      ⟨[[exMsgStart]], true, [exMsgStart2]⟩ ∧
    (segStep ⟨[], true, [exMsgStart]⟩ exMsgStart2).sessions.flatten ++
      (segStep ⟨[], true, [exMsgStart]⟩ exMsgStart2).current =
      [exMsgStart, exMsgStart2] := by
  have h := C3_forced_close ⟨[], true, [exMsgStart]⟩ exMsgStart2 rfl
    (by decide) (by decide)
  exact ⟨by simpa using h.1, by simpa using h.2⟩

/-- C8: if the input ends while the segmenter is inside an open session,
that session is nonempty and is emitted as the final session. -/
theorem C8_eof_emit (msgs : List Message)
    (h : (List.foldl segStep segInit msgs).inSession = true) :
    extract_rpg_sessions msgs =
      (List.foldl segStep segInit msgs).sessions ++
        [(List.foldl segStep segInit msgs).current] ∧
      (List.foldl segStep segInit msgs).current ≠ [] := by
  have hinv : segInv (List.foldl segStep segInit msgs) :=
    segInv_foldl msgs segInit segInv_init
  obtain ⟨m, t, hcur, _, _⟩ := hinv.2 h
  have hne : (List.foldl segStep segInit msgs).current ≠ [] := by
    rw [hcur]
    simp
  have hemp : (List.foldl segStep segInit msgs).current.isEmpty = false := by
    rw [hcur]
    rfl
  refine ⟨?_, hne⟩
  unfold extract_rpg_sessions
  simp [h, hemp]

theorem C8_witness :
    extract_rpg_sessions [exMsgStart, exMsgChat] =
      (List.foldl segStep segInit [exMsgStart, exMsgChat]).sessions ++
        [(List.foldl segStep segInit [exMsgStart, exMsgChat]).current] ∧
      (List.foldl segStep segInit [exMsgStart, exMsgChat]).current ≠ [] :=
  C8_eof_emit [exMsgStart, exMsgChat] (by decide)

theorem contentLabel_eq : contentLabel = ['内', '容', ':'] := rfl

theorem timeLabel_eq : timeLabel = ['时', '间', ':'] := rfl

theorem content_not_time {s : Str} (h : contentLabel.isPrefixOf s = true) :
    timeLabel.isPrefixOf s = false := by
  cases s with
  | nil => simp [contentLabel_eq, List.isPrefixOf] at h
  | cons a t =>
    rw [contentLabel_eq] at h
    rw [timeLabel_eq]
    simp only [List.isPrefixOf, Bool.and_eq_true, beq_iff_eq] at h
    simp only [List.isPrefixOf, Bool.and_eq_false_iff]
    left
    rw [← h.1]
    decide

theorem contentLoop_cons_eq (n : Nat) (next : Str) (rest : List Str) :
    contentLoop n (next :: rest) =
      if stopHere (pyStrip next) rest then ([], next :: rest)
      else if pyStrip next = [] then
        if n + 1 ≥ 2 then ([], next :: rest)
        else ([] :: (contentLoop (n + 1) rest).1, (contentLoop (n + 1) rest).2)
      else (pyStrip next :: (contentLoop 0 rest).1, (contentLoop 0 rest).2) := rfl

theorem contentLoop_take_drop : ∀ (cur : List Str) (n : Nat),
    ∃ k, contentLoop n cur = ((cur.take k).map pyStrip, cur.drop k) := by
  intro cur
  induction cur with
  | nil => intro n; exact ⟨0, by simp [contentLoop]⟩
  | cons next rest ih =>
    intro n
    rw [contentLoop_cons_eq]
    by_cases h1 : stopHere (pyStrip next) rest = true
    · rw [if_pos h1]
      exact ⟨0, by simp⟩
    · rw [if_neg h1]
      by_cases h2 : pyStrip next = []
      · rw [if_pos h2]
        by_cases h3 : n + 1 ≥ 2
        · rw [if_pos h3]
          exact ⟨0, by simp⟩
        · rw [if_neg h3]
          obtain ⟨k, hk⟩ := ih (n + 1)
          refine ⟨k + 1, ?_⟩
          rw [hk]
          simp [h2]
      · rw [if_neg h2]
        obtain ⟨k, hk⟩ := ih 0
        refine ⟨k + 1, ?_⟩
        rw [hk]
        simp

theorem contentLoop_head_ne (n : Nat) (hn : 1 ≤ n) (cur : List Str)
    (h : Str) (t : List Str) (heq : (contentLoop n cur).1 = h :: t) : h ≠ [] := by
  cases cur with
  | nil => simp [contentLoop] at heq
  | cons next rest =>
    rw [contentLoop_cons_eq] at heq
    by_cases h1 : stopHere (pyStrip next) rest = true
    · rw [if_pos h1] at heq
      simp at heq
    · rw [if_neg h1] at heq
      by_cases h2 : pyStrip next = []
      · rw [if_pos h2] at heq
        have h3 : n + 1 ≥ 2 := by omega
        rw [if_pos h3] at heq
        simp at heq
      · rw [if_neg h2] at heq
        simp at heq
        intro hcon
        rw [hcon] at heq
        exact h2 heq.1

theorem contentLoop_chain : ∀ (cur : List Str) (n : Nat),
    List.Chain' (fun a b => a = [] → b ≠ []) (contentLoop n cur).1 := by
  intro cur
  induction cur with
  | nil => intro n; simp [contentLoop]
  | cons next rest ih =>
    intro n
    rw [contentLoop_cons_eq]
    by_cases h1 : stopHere (pyStrip next) rest = true
    · rw [if_pos h1]
      simp
    · rw [if_neg h1]
      by_cases h2 : pyStrip next = []
      · rw [if_pos h2]
        by_cases h3 : n + 1 ≥ 2
        · rw [if_pos h3]
          simp
        · rw [if_neg h3]
          simp only []
          rw [List.chain'_cons']
          refine ⟨?_, ih (n + 1)⟩
          intro b hb _
          cases hp : (contentLoop (n + 1) rest).1 with
          | nil => rw [hp] at hb; simp at hb
          | cons hh tt =>
            rw [hp] at hb
            simp at hb
            rw [← hb]
            exact contentLoop_head_ne (n + 1) (by omega) rest hh tt hp
      · rw [if_neg h2]
        simp only []
        rw [List.chain'_cons']
        refine ⟨?_, ih 0⟩
        intro b _ hcon
        exact absurd hcon h2

theorem head_dropWhile_isEmpty : ∀ (ls : List Str) (h : Str),
    (ls.dropWhile List.isEmpty).head? = some h → h.isEmpty = false := by
  intro ls
  induction ls with
  | nil => intro h hh; simp at hh
  | cons x xs ih =>
    intro h hh
    by_cases hx : x.isEmpty = true
    · rw [List.dropWhile_cons] at hh
      rw [if_pos hx] at hh
      exact ih h hh
    · rw [List.dropWhile_cons] at hh
      rw [if_neg hx] at hh
      simp at hh
      rw [← hh]
      exact Bool.eq_false_iff.mpr hx

theorem dropTrailingBlanks_getLast (ls : List Str) (h : Str)
    (hl : (dropTrailingBlanks ls).getLast? = some h) : h ≠ [] := by
  unfold dropTrailingBlanks at hl
  rw [List.getLast?_reverse] at hl
  have := head_dropWhile_isEmpty ls.reverse h hl
  intro hcon
  rw [hcon] at this
  simp at this

theorem contentLoop_suffix (n : Nat) (cur : List Str) :
    (contentLoop n cur).2 <:+ cur := by
  obtain ⟨k, hk⟩ := contentLoop_take_drop cur n
  rw [hk]
  exact List.drop_suffix k cur

theorem skipMention_suffix : ∀ xs : List Str, skipMention xs <:+ xs := by
  intro xs
  induction xs with
  | nil => simp [skipMention]
  | cons x xs ih =>
    simp only [skipMention]
    by_cases h : (!(pyStrip x).isEmpty && mentionLabel.isPrefixOf (pyStrip x)) = true
    · rw [if_pos h]
      exact ih.trans (List.suffix_cons x xs)
    · rw [if_neg h]

theorem readTime_suffix (rest : List Str) : (readTime rest).2 <:+ rest := by
  cases rest with
  | nil => simp [readTime]
  | cons t r =>
    by_cases ht : timeLabel.isPrefixOf (pyStrip t) = true
    · simp only [readTime, if_pos ht]
      exact List.suffix_cons t r
    · simp [readTime, ht]

theorem readContent_suffix (rest1 : List Str) : (readContent rest1).2 <:+ rest1 := by
  cases rest1 with
  | nil => simp [readContent]
  | cons c r =>
    by_cases hc : contentLabel.isPrefixOf (pyStrip c) = true
    · simp only [readContent, if_pos hc]
      exact (contentLoop_suffix 0 r).trans (List.suffix_cons c r)
    · simp [readContent, hc]

theorem processCandidate_snd (line : Str) (rest : List Str) :
    (processCandidate line rest).2 = skipMention (readContent (readTime rest).2).2 := by
  simp only [processCandidate]
  split
  · split <;> rfl
  · rfl

theorem processCandidate_suffix (line : Str) (rest : List Str) :
    (processCandidate line rest).2 <:+ rest := by
  rw [processCandidate_snd]
  exact (skipMention_suffix _).trans ((readContent_suffix _).trans (readTime_suffix rest))

theorem processCandidate_content_ne (line : Str) (rest : List Str) (m : Message)
    (hm : (processCandidate line rest).1 = some m) : m.content ≠ [] := by
  simp only [processCandidate] at hm
  split at hm
  · split at hm
    · simp at hm
    · simp at hm
      rw [← hm]
      assumption
  · simp at hm

theorem parseLoopF_content_ne : ∀ (fuel : Nat) (lines : List Str) (m : Message),
    m ∈ parseLoopF fuel lines → m.content ≠ [] := by
  intro fuel
  induction fuel with
  | zero => intro lines m h; simp [parseLoopF] at h
  | succ k ih =>
    intro lines m h
    cases lines with
    | nil => simp [parseLoopF] at h
    | cons l rest =>
      simp only [parseLoopF] at h
      by_cases hc : (!(pyStrip l).isEmpty && endsColon (pyStrip l)) = true
      · rw [if_pos hc] at h
        rcases List.mem_append.mp h with h' | h'
        · have hsome : (processCandidate (pyStrip l) rest).1 = some m := by
            cases hpr : (processCandidate (pyStrip l) rest).1 with
            | none => rw [hpr] at h'; simp at h'
            | some mm =>
              rw [hpr] at h'
              simp at h'
              rw [h']
          exact processCandidate_content_ne _ _ m hsome
        · exact ih _ m h'
      · rw [if_neg hc] at h
        exact ih _ m h

theorem parseLoopF_fuel_irrelevant : ∀ (f1 f2 : Nat) (lines : List Str),
    lines.length ≤ f1 → lines.length ≤ f2 →
    parseLoopF f1 lines = parseLoopF f2 lines := by
  intro f1
  induction f1 with
  | zero =>
    intro f2 lines h1 _
    have : lines = [] := List.length_eq_zero.mp (Nat.le_zero.mp h1)
    subst this
    cases f2 <;> rfl
  | succ k ih =>
    intro f2 lines h1 h2
    cases lines with
    | nil => cases f2 <;> rfl
    | cons l rest =>
      cases f2 with
      | zero => simp at h2
      | succ k2 =>
        simp only [parseLoopF]
        by_cases hc : (!(pyStrip l).isEmpty && endsColon (pyStrip l)) = true
        · rw [if_pos hc, if_pos hc]
          have hlen : (processCandidate (pyStrip l) rest).2.length ≤ rest.length :=
            (processCandidate_suffix (pyStrip l) rest).length_le
          have hr : rest.length ≤ k := by simpa using h1
          have hr2 : rest.length ≤ k2 := by simpa using h2
          rw [ih k2 _ (le_trans hlen hr) (le_trans hlen hr2)]
        · rw [if_neg hc, if_neg hc]
          have hr : rest.length ≤ k := by simpa using h1
          have hr2 : rest.length ≤ k2 := by simpa using h2
          rw [ih k2 rest hr hr2]

theorem parseLoopF_adequate (fuel : Nat) (lines : List Str)
    (h : lines.length ≤ fuel) : parseLoopF fuel lines = parse_chat_log lines :=
  parseLoopF_fuel_irrelevant fuel lines.length lines h (le_refl _)

/-- C4: every message emitted by `parse_chat_log` has a nonempty body; a
candidate that never acquires a nonempty content field yields no message
(`if content:`), and parsing resumes at a suffix of the following lines. -/
theorem C4_nonempty_bodies :
    (∀ (lines : List Str) (m : Message), m ∈ parse_chat_log lines → m.content ≠ []) ∧
    (∀ (line : Str) (rest : List Str) (m : Message),
      (processCandidate line rest).1 = some m → m.content ≠ []) ∧
    (∀ (line : Str) (rest : List Str), (processCandidate line rest).2 <:+ rest) := by
  refine ⟨?_, ?_, ?_⟩
  · intro lines m h
    exact parseLoopF_content_ne lines.length lines m h
  · exact processCandidate_content_ne
  · exact processCandidate_suffix

theorem C4_witness : (⟨"A".toList, none, "hi".toList⟩ : Message).content ≠ [] :=
  C4_nonempty_bodies.1 ["A:".toList, "内容: hi".toList]
    ⟨"A".toList, none, "hi".toList⟩ (by decide)

/-- C5 counterexample: a content continuation line `"  spaced  "` is
whitespace-stripped when accumulated, so the body is `"hi\nspaced"`, not the
verbatim `"hi\n  spaced  "` the claim requires. -/
theorem C5_counterexample :
    parse_chat_log ["A:".toList, "时间: t".toList, "内容: hi".toList,
        "  spaced  ".toList] =
      [⟨"A".toList, some "t".toList, "hi\nspaced".toList⟩] ∧
    "hi\nspaced".toList ≠ "hi\n  spaced  ".toList := by
  exact ⟨by decide, by decide⟩

/-- C5 (amended): each accumulated source line is carried into the content
list whitespace-stripped (`pyStrip`), in order, as exactly a prefix of the
remaining lines (the rest is left unconsumed); the accumulated lines never
contain two consecutive blanks (a single blank is kept as an interior blank,
a second consecutive blank stops accumulation and is excluded); trailing
blank lines are removed before the lines are joined with newlines. -/
theorem C5_amended_accumulation :
    (∀ (n : Nat) (cur : List Str),
      ∃ k, contentLoop n cur = ((cur.take k).map pyStrip, cur.drop k)) ∧
    (∀ (n : Nat) (cur : List Str),
      List.Chain' (fun a b => a = [] → b ≠ []) (contentLoop n cur).1) ∧
    (∀ (ls : List Str) (h : Str), (dropTrailingBlanks ls).getLast? = some h → h ≠ []) := by
  refine ⟨?_, ?_, ?_⟩
  · intro n cur
    exact contentLoop_take_drop cur n
  · intro n cur
    exact contentLoop_chain cur n
  · exact dropTrailingBlanks_getLast

theorem C5_witness : ("a".toList : Str) ≠ [] :=
  C5_amended_accumulation.2.2 ["a".toList, [], []] "a".toList (by decide)

theorem processCandidate_content_case (line c : Str) (r : List Str)
    (hc : contentLabel.isPrefixOf (pyStrip c) = true) :
    (builtBody c r ≠ [] →
      processCandidate line (c :: r) =
        (some ⟨line.dropLast, none, builtBody c r⟩, skipMention (contentLoop 0 r).2)) ∧
    (builtBody c r = [] →
      processCandidate line (c :: r) = (none, skipMention (contentLoop 0 r).2)) := by
  have ht : timeLabel.isPrefixOf (pyStrip c) = false := content_not_time hc
  have hrt : readTime (c :: r) = (none, c :: r) := by simp [readTime, ht]
  have hrc : readContent (c :: r) = (some (builtBody c r), (contentLoop 0 r).2) := by
    simp [readContent, hc, builtBody]
  constructor
  · intro hbb
    simp only [processCandidate, hrt, hrc]
    simp [hbb]
  · intro hbb
    simp only [processCandidate, hrt, hrc]
    simp [hbb]

/-- C9: a candidate whose immediately following line starts with the
content label (no time line in between) is still processed: any message it
emits has timestamp `none`; it emits one exactly when the built body is
nonempty. -/
theorem C9_missing_time (line c : Str) (r : List Str)
    (hc : contentLabel.isPrefixOf (pyStrip c) = true) :
    (∀ m, (processCandidate line (c :: r)).1 = some m → m.timestamp = none) ∧
    (builtBody c r ≠ [] →
      (processCandidate line (c :: r)).1 = some ⟨line.dropLast, none, builtBody c r⟩) ∧
    (builtBody c r = [] → (processCandidate line (c :: r)).1 = none) := by
  have h := processCandidate_content_case line c r hc
  refine ⟨?_, ?_, ?_⟩
  · intro m hm
    by_cases hbb : builtBody c r = []
    · rw [h.2 hbb] at hm
      simp at hm
    · rw [h.1 hbb] at hm
      simp at hm
      rw [← hm]
  · intro hbb
    rw [h.1 hbb]
  · intro hbb
    rw [h.2 hbb]

theorem C9_witness :
    (processCandidate "A:".toList ["内容: hi".toList]).1 =
      some ⟨"A".toList, none, "hi".toList⟩ :=
  (C9_missing_time "A:".toList "内容: hi".toList [] (by decide)).2.1 (by decide)

theorem isPrefixOf_append_self : ∀ (l s : Str), l.isPrefixOf (l ++ s) = true := by
  intro l
  induction l with
  | nil => intro s; cases s <;> rfl
  | cons a t ih => intro s; simp [List.isPrefixOf, ih]

theorem raGo_skip (pat : Str) : ∀ (x s : Str), raGo pat x.length (x ++ s) = raGo pat 0 s := by
  intro x
  induction x with
  | nil => intro s; rfl
  | cons a t ih =>
    intro s
    show raGo pat (t.length + 1) (a :: (t ++ s)) = raGo pat 0 s
    rw [show raGo pat (t.length + 1) (a :: (t ++ s)) = raGo pat t.length (t ++ s) from rfl]
    exact ih s

theorem raGo_match (p0 : Char) (pt s : Str) :
    raGo (p0 :: pt) 0 ((p0 :: pt) ++ s) = raGo (p0 :: pt) 0 s := by
  have hpre : (p0 :: pt).isPrefixOf (p0 :: (pt ++ s)) = true :=
    isPrefixOf_append_self (p0 :: pt) s
  show raGo (p0 :: pt) 0 (p0 :: (pt ++ s)) = raGo (p0 :: pt) 0 s
  rw [show raGo (p0 :: pt) 0 (p0 :: (pt ++ s)) =
      if (p0 :: pt).isPrefixOf (p0 :: (pt ++ s)) then
        raGo (p0 :: pt) ((p0 :: pt).length - 1) (pt ++ s)
      else p0 :: raGo (p0 :: pt) 0 (pt ++ s) from rfl]
  rw [if_pos hpre]
  rw [show (p0 :: pt).length - 1 = pt.length by simp]
  exact raGo_skip (p0 :: pt) pt s

theorem raGo_copy (p0 : Char) (pt : Str) : ∀ (a s : Str), p0 ∉ a →
    raGo (p0 :: pt) 0 (a ++ s) = a ++ raGo (p0 :: pt) 0 s := by
  intro a
  induction a with
  | nil => intro s _; rfl
  | cons x xs ih =>
    intro s hx
    have hxp : ¬x = p0 := fun h => hx (by rw [h]; exact List.mem_cons_self _ _)
    have hpre : (p0 :: pt).isPrefixOf (x :: (xs ++ s)) = false := by
      show ((p0 == x) && pt.isPrefixOf (xs ++ s)) = false
      have hb : (p0 == x) = false := beq_eq_false_iff_ne.mpr (fun h => hxp h.symm)
      rw [hb, Bool.false_and]
    show raGo (p0 :: pt) 0 (x :: (xs ++ s)) = x :: (xs ++ raGo (p0 :: pt) 0 s)
    rw [show raGo (p0 :: pt) 0 (x :: (xs ++ s)) =
        if (p0 :: pt).isPrefixOf (x :: (xs ++ s)) then
          raGo (p0 :: pt) ((p0 :: pt).length - 1) (xs ++ s)
        else x :: raGo (p0 :: pt) 0 (xs ++ s) from rfl]
    rw [if_neg (by simp [hpre])]
    rw [ih s (fun h => hx (List.mem_cons_of_mem _ h))]

theorem raGo_absent (p0 : Char) (pt b : Str) (hb : p0 ∉ b) :
    raGo (p0 :: pt) 0 b = b := by
  have h := raGo_copy p0 pt b [] hb
  rw [List.append_nil] at h
  rw [h, show raGo (p0 :: pt) 0 ([] : Str) = [] from rfl, List.append_nil]

theorem pyReplace_two (a b : Str) (ha : '内' ∉ a) (hb : '内' ∉ b) :
    pyReplace contentLabel (contentLabel ++ a ++ contentLabel ++ b) = a ++ b := by
  rw [show pyReplace contentLabel (contentLabel ++ a ++ contentLabel ++ b) =
      raGo contentLabel 0 (contentLabel ++ a ++ contentLabel ++ b) from rfl]
  rw [contentLabel_eq, List.append_assoc, List.append_assoc]
  rw [show (['内', '容', ':'] : Str) = '内' :: ['容', ':'] from rfl]
  rw [raGo_match '内' ['容', ':']]
  rw [raGo_copy '内' ['容', ':'] a _ ha]
  rw [raGo_match '内' ['容', ':']]
  rw [raGo_absent '内' ['容', ':'] b hb]

theorem dropTrailingBlanks_isPre (ls : List Str) : dropTrailingBlanks ls <+: ls := by
  unfold dropTrailingBlanks
  have hsuf : ls.reverse.dropWhile List.isEmpty <:+ ls.reverse :=
    List.dropWhile_suffix _
  have h := List.reverse_prefix.mpr hsuf
  rwa [List.reverse_reverse] at h

theorem dropTrailingBlanks_cons (x : Str) (ls : List Str) :
    dropTrailingBlanks (x :: ls) = [] ∨
      ∃ ls2, dropTrailingBlanks (x :: ls) = x :: ls2 := by
  have hpre := dropTrailingBlanks_isPre (x :: ls)
  cases heq : dropTrailingBlanks (x :: ls) with
  | nil => exact Or.inl rfl
  | cons hh tt =>
    right
    rw [heq] at hpre
    have hx := (List.cons_prefix_cons.mp hpre).1
    exact ⟨tt, by rw [hx]⟩

theorem builtBody_structure (c : Str) (r : List Str) :
    builtBody c r = [] ∨
      ∃ suffix, builtBody c r = pyStrip (pyReplace contentLabel (pyStrip c)) ++ suffix ∧
        (suffix = [] ∨ ∃ u, suffix = '\n' :: u) := by
  unfold builtBody
  rcases dropTrailingBlanks_cons (pyStrip (pyReplace contentLabel (pyStrip c)))
      ((contentLoop 0 r).1) with h | ⟨ls2, h⟩
  · rw [h]
    exact Or.inl rfl
  · rw [h]
    right
    cases ls2 with
    | nil => exact ⟨[], by simp [joinNL], Or.inl rfl⟩
    | cons y t => exact ⟨'\n' :: joinNL (y :: t), rfl, Or.inr ⟨joinNL (y :: t), rfl⟩⟩

/-- C10: when the first content line contains the content label both at the
start and again mid-line, the single `replace` call deletes both
occurrences string-wide, and the message body starts with the whitespace-
stripped concatenation of what surrounded them. -/
theorem C10_label_deleted_stringwide (line c : Str) (r : List Str) (a b : Str)
    (m : Message)
    (hsplit : pyStrip c = contentLabel ++ a ++ contentLabel ++ b)
    (ha : '内' ∉ a) (hb : '内' ∉ b)
    (hm : (processCandidate line (c :: r)).1 = some m) :
    ∃ suffix, m.content = pyStrip (a ++ b) ++ suffix ∧
      (suffix = [] ∨ ∃ u, suffix = '\n' :: u) := by
  have hcpre : contentLabel.isPrefixOf (pyStrip c) = true := by
    rw [hsplit, List.append_assoc, List.append_assoc]
    exact isPrefixOf_append_self _ _
  have hfirst : pyStrip (pyReplace contentLabel (pyStrip c)) = pyStrip (a ++ b) := by
    rw [hsplit, pyReplace_two a b ha hb]
  have hcase := processCandidate_content_case line c r hcpre
  by_cases hbb : builtBody c r = []
  · rw [hcase.2 hbb] at hm
    simp at hm
  · rw [hcase.1 hbb] at hm
    simp at hm
    rcases builtBody_structure c r with h | ⟨suffix, heq, hsfx⟩
    · exact absurd h hbb
    · have hcontent : m.content = builtBody c r := by rw [← hm]
      exact ⟨suffix, by rw [hcontent, heq, hfirst], hsfx⟩

theorem C10_witness :
    ∃ suffix, (⟨"A".toList, none, "foo bar".toList⟩ : Message).content =
        pyStrip (" foo ".toList ++ "bar".toList) ++ suffix ∧
      (suffix = [] ∨ ∃ u, suffix = '\n' :: u) :=
  C10_label_deleted_stringwide "A:".toList "内容: foo 内容:bar".toList []
    " foo ".toList "bar".toList ⟨"A".toList, none, "foo bar".toList⟩
    (by decide) (by decide) (by decide) (by decide)

/-- C6 counterexample: the raw author `'【黑印】加尔文'` is not a key of
`NAME_MAPPING`, so it passes through unchanged, yet it is a key of
`COLOR_MAPPING`, so its runs are colored black, contradicting the claim
that every unmapped identifier renders with no color. -/
theorem C6_counterexample :
    NAME_MAPPING.lookup ("【黑印】加尔文".toList) = none ∧
    (renderSession [⟨"【黑印】加尔文".toList, none, "hi".toList⟩]).map
        (fun rm => (rm.nameRun.text, rm.nameRun.color)) =
      [("【黑印】加尔文".toList, some ⟨0, 0, 0⟩)] :=
  ⟨by decide, by decide⟩

/-- C6 (amended): a raw author identifier absent from both the name table
and the color table renders with the identifier unchanged as display name
and no color on any of the four runs. -/
theorem C6_amended_unmapped (m : Message)
    (hname : NAME_MAPPING.lookup m.username = none)
    (hcolor : COLOR_MAPPING.lookup m.username = none) :
    (renderMessage (processMsg m)).nameRun.text = m.username ∧
    (renderMessage (processMsg m)).nameRun.color = none ∧
    (renderMessage (processMsg m)).colonRun.color = none ∧
    (renderMessage (processMsg m)).contentRun.color = none ∧
    (∀ tr, (renderMessage (processMsg m)).timestampRun = some tr → tr.color = none) := by
  have hu : (processMsg m).username = m.username := by
    simp [processMsg, hname]
  have hc : COLOR_MAPPING.lookup (processMsg m).username = none := by
    rw [hu]
    exact hcolor
  refine ⟨?_, ?_, ?_, ?_, ?_⟩
  · show (processMsg m).username = m.username
    exact hu
  · show COLOR_MAPPING.lookup (processMsg m).username = none
    exact hc
  · show COLOR_MAPPING.lookup (processMsg m).username = none
    exact hc
  · show COLOR_MAPPING.lookup (processMsg m).username = none
    exact hc
  · intro tr htr
    simp only [renderMessage] at htr
    cases hts : (processMsg m).timestamp with
    | none =>
      rw [hts] at htr
      simp at htr
    | some ts =>
      rw [hts] at htr
      by_cases hempty : ts = []
      · subst hempty
        simp at htr
      · simp [hempty] at htr
        subst htr
        exact hc

theorem C6_witness :
    (renderMessage (processMsg ⟨"路人甲".toList, some "t".toList, "hello".toList⟩)).nameRun.text =
      ("路人甲".toList : Str) ∧
    (renderMessage (processMsg ⟨"路人甲".toList, some "t".toList, "hello".toList⟩)).nameRun.color = none ∧
    (renderMessage (processMsg ⟨"路人甲".toList, some "t".toList, "hello".toList⟩)).colonRun.color = none ∧
    (renderMessage (processMsg ⟨"路人甲".toList, some "t".toList, "hello".toList⟩)).contentRun.color = none ∧
    (∀ tr, (renderMessage (processMsg ⟨"路人甲".toList, some "t".toList, "hello".toList⟩)).timestampRun =
        some tr → tr.color = none) :=
  C6_amended_unmapped ⟨"路人甲".toList, some "t".toList, "hello".toList⟩
    (by decide) (by decide)

/-- C7: in rendered output a timestamp run appears only on messages whose
body matches the start-marker pattern or equals the end-marker literal;
every other message renders without a timestamp even if one was captured. -/
theorem C7_timestamp_only_markers (session : List Message) (rm : RenderedMessage)
    (hmem : rm ∈ renderSession session) (hts : rm.timestampRun.isSome = true) :
    containsStart rm.contentRun.text = true ∨ rm.contentRun.text = saveMarker := by
  unfold renderSession at hmem
  obtain ⟨pm, hpm, rfl⟩ := List.mem_map.mp hmem
  unfold process_rpg_session at hpm
  obtain ⟨m0, _, rfl⟩ := List.mem_map.mp hpm
  have hcontent : (renderMessage (processMsg m0)).contentRun.text = m0.content := rfl
  by_cases hmark : containsStart m0.content = true ∨ m0.content = saveMarker
  · rw [hcontent]
    exact hmark
  · exfalso
    have hnone : (processMsg m0).timestamp = none := by
      simp [processMsg, hmark]
    have hrun : (renderMessage (processMsg m0)).timestampRun = none := by
      simp [renderMessage, hnone]
    rw [hrun] at hts
    simp at hts

theorem C7_witness :
    containsStart (renderMessage (processMsg exMsgSave)).contentRun.text = true ∨
      (renderMessage (processMsg exMsgSave)).contentRun.text = saveMarker :=
  C7_timestamp_only_markers [exMsgSave] (renderMessage (processMsg exMsgSave))
    (by decide) (by decide)
